import Mathlib

/-!
Verification of the ARO-HCP image-updater core against its specification.

The development shallowly embeds the Go sources of the image digest updater:

* `tooling/image-updater/pkg/yaml/editor.go` (the structure-preserving
  YAML editor: `GetValue`, `SetValue`, `Save`, `findChild`),
* `tooling/image-updater/pkg/clients/quay.go` (the Quay registry client:
  `GetLatestDigest`, `tryGetLatestTag`, `getAllTags`,
  `getDigestByTagPattern`, `isMetadataTag`) together with the repository's
  second copy of that client (here the `QuayB` namespace, whose tag crawl
  `getTags` is bounded by `maxPages = 5`),
* `tooling/image-updater/pkg/updater/updater.go` (the orchestrator:
  `UpdateImages`, `updateImage`) and `pkg/config/config.go` (the
  configuration data model).

Pure Go string operations (`strings.Split`, `strings.Join`,
`strings.Index`, `strings.HasSuffix`) are modelled by structurally
recursive functions over `List Char` so that every definition evaluates by
kernel reduction.  External collaborators (the HTTP transport, the
`gopkg.in/yaml.v3` parser, `regexp` matching and `sort.Slice`) are passed
in as explicit parameters: a registry is a function from page numbers to
responses, a parser is a function from raw lines to a node tree, a
compiled regular expression is a `String → Bool` matcher, and the sort is
a function assumed (where needed) to permute its input — each exactly the
guarantee the corresponding library provides.
-/

namespace ImageUpdater

/-! ### Character-list models of the Go `strings` helpers -/

/-- Model of Go `strings.Split(s, sep)` for a one-character separator:
splits a character list at every occurrence of `sep`. -/
def splitOnChar (sep : Char) : List Char → List (List Char)
  | [] => [[]]
  | c :: cs =>
    let r := splitOnChar sep cs
    if c = sep then [] :: r
    else
      match r with
      | [] => [[c]]
      | h :: t => (c :: h) :: t

/-- Model of Go `strings.Join(parts, sep)` for a one-character separator. -/
def joinWithChar (sep : Char) : List (List Char) → List Char
  | [] => []
  | [l] => l
  | l :: ls => l ++ sep :: joinWithChar sep ls

/-- Model of Go `strings.Index(s, sep)` for a one-character pattern:
the index of the first occurrence of `sep`, if any. -/
def stringIndexChar (sep : Char) : List Char → Option Nat
  | [] => none
  | c :: cs => if c = sep then some 0 else (stringIndexChar sep cs).map (· + 1)

/-- Physical lines of a file body, as in `strings.Split(string(data), "\n")`. -/
def splitLines (content : String) : List String :=
  (splitOnChar '\n' content.toList).map String.mk

/-- Reconstructed file body, as in `strings.Join(lines, "\n")`. -/
def joinLines (lines : List String) : String :=
  String.mk (joinWithChar '\n' (lines.map String.toList))

/-- Dot-separated logical-path segments, as in `strings.Split(path, ".")`. -/
def splitPath (path : String) : List String :=
  (splitOnChar '.' path.toList).map String.mk

/-- Model of Go `strings.HasSuffix(s, suffix)`. -/
def hasSuffix (s suf : String) : Bool :=
  List.isPrefixOf suf.toList.reverse s.toList.reverse

/-- Model of the Go string comparison operator `<` (byte-wise
lexicographic; on valid UTF-8, byte order and code-point order agree):
`goStringLess a b` holds when `string(a) < string(b)`. -/
def goStringLess : List Char → List Char → Bool
  | [], [] => false
  | [], _ :: _ => true
  | _ :: _, [] => false
  | c :: cs, d :: ds =>
    if c.toNat < d.toNat then true
    else if d.toNat < c.toNat then false
    else goStringLess cs ds

/-! ### The YAML node tree (`gopkg.in/yaml.v3` node shape)

`yaml.Node` carries a kind, a scalar value, the 1-based source line and a
list of children (`Content`).  For a mapping node the children alternate
key node, value node; `yaml.v3` always produces an even number of them,
captured below by `YamlNode.wf`. -/

/-- Node kinds of `yaml.Node` that the editor distinguishes. -/
inductive YamlKind where
  | document
  | mapping
  | sequence
  | scalar
  deriving DecidableEq

/-- Shape of a `yaml.Node`: kind, scalar value, source line, children. -/
inductive YamlNode where
  | mk (kind : YamlKind) (value : String) (line : Nat) (content : List YamlNode)

/-- Kind of a node. -/
def YamlNode.kind : YamlNode → YamlKind
  | .mk k _ _ _ => k

/-- Scalar value of a node. -/
def YamlNode.value : YamlNode → String
  | .mk _ v _ _ => v

/-- Source line (1-based) of a node. -/
def YamlNode.line : YamlNode → Nat
  | .mk _ _ l _ => l

/-- Children of a node. -/
def YamlNode.content : YamlNode → List YamlNode
  | .mk _ _ _ c => c

mutual

/-- Well-formedness of a parsed tree: every mapping node has an even
number of children (`yaml.v3` emits key/value node pairs).  The editor's
`findChild` reads children two at a time, so this is the domain on which
the embedding is exact. -/
def YamlNode.wf : YamlNode → Bool
  | .mk k _ _ c => ((k != .mapping) || (c.length % 2 == 0)) && YamlNode.wfAll c

/-- All nodes of a list are well-formed. -/
def YamlNode.wfAll : List YamlNode → Bool
  | [] => true
  | n :: ns => YamlNode.wf n && YamlNode.wfAll ns

end

/-! ### The editor (`Editor.GetValue` / `Editor.SetValue` / `Editor.Save`) -/

/-- Inner loop of `findChild`: walk mapping children two at a time
(`Content[i]` is a key node, `Content[i+1]` its value node) and return
the value node of the first key node whose value equals `key`. -/
def findPair (key : String) : List YamlNode → Option YamlNode
  | k :: v :: rest => if k.value = key then some v else findPair key rest
  | _ => none

/-- Embedding of `Editor.findChild`: unwrap a non-empty document node to
its first child, fail on non-mapping nodes, otherwise scan key/value
pairs. -/
def findChild (parent : YamlNode) (key : String) : Option YamlNode :=
  let p :=
    match parent with
    | .mk .document _ _ (c :: _) => c
    | _ => parent
  if p.kind = .mapping then findPair key p.content else none

/-- Segment-by-segment resolution loop shared by `GetValue` and
`SetValue`: returns the node reached after following every segment, or
`none` as soon as one segment cannot be resolved. -/
def resolveLoop : YamlNode → List String → Option YamlNode
  | node, [] => some node
  | node, seg :: rest =>
    match findChild node seg with
    | none => none
    | some n => resolveLoop n rest

/-- Embedding of `Editor.GetValue`: split the path on dots, resolve it,
fail with a not-found error when a segment is absent, fail with a
not-scalar error when the final node is not a scalar, otherwise return
the scalar's value. -/
def GetValue (root : YamlNode) (path : String) : Except String String :=
  match resolveLoop root (splitPath path) with
  | none => .error s!"path {path} not found"
  | some n =>
    if n.kind = .scalar then .ok n.value
    else .error s!"path {path} does not point to a scalar value"

/-- Embedding of the effect of `Editor.SetValue` on the pending-edit map:
the same resolution and scalar check as `GetValue`, returning the source
line recorded into `e.updates[node.Line]`.  (The in-place mutation of
`node.Value` is observable only through later `GetValue` calls on the
same editor, which the updater never makes.) -/
def SetValueLine (root : YamlNode) (path : String) : Except String Nat :=
  match resolveLoop root (splitPath path) with
  | none => .error s!"path {path} not found"
  | some n =>
    if n.kind = .scalar then .ok n.line
    else .error s!"path {path} does not point to a scalar value"

/-- Line rewrite inside `Editor.Save`'s loop: locate the first colon,
keep the text through it verbatim (`indent := line[:colonIdx+1]`) and
append one space and the new value (`fmt.Sprintf("%s %s", ...)`);
`none` when the line contains no colon. -/
def patchLine (line newValue : String) : Option String :=
  match stringIndexChar ':' line.toList with
  | none => none
  | some colonIdx =>
    some (String.mk (line.toList.take (colonIdx + 1) ++ ' ' :: newValue.toList))

/-- One iteration of `Editor.Save`'s loop: bounds-check the 1-based line
number, then rewrite that line via `patchLine`. -/
def applyOne (lines : List String) (lineNum : Nat) (newValue : String) :
    Except String (List String) :=
  if lineNum < 1 ∨ lineNum > lines.length then
    .error s!"invalid line number {lineNum}"
  else
    match patchLine (lines.getD (lineNum - 1) "") newValue with
    | none => .error s!"line {lineNum} does not contain a colon"
    | some patched => .ok (lines.set (lineNum - 1) patched)

/-- The whole in-memory loop of `Editor.Save` over the pending edits
(`for lineNum, newValue := range e.updates`), in some iteration order of
the Go map. -/
def applyUpdates : List (Nat × String) → List String → Except String (List String)
  | [], lines => .ok lines
  | (n, v) :: rest, lines =>
    match applyOne lines n v with
    | .error e => .error e
    | .ok lines2 => applyUpdates rest lines2

/-- Embedding of `Editor.Save`: split the file into physical lines, apply
every pending edit in memory, and only then join the lines back into the
body handed to the single `os.WriteFile`. -/
def Save (updates : List (Nat × String)) (content : String) : Except String String :=
  match applyUpdates updates (splitLines content) with
  | .error e => .error e
  | .ok lines2 => .ok (joinLines lines2)

/-- File content after a `Save` call: `os.WriteFile` runs only when every
edit has been applied in memory, so an error leaves the file as it was. -/
def savedContent (updates : List (Nat × String)) (content : String) : String :=
  match Save updates content with
  | .error _ => content
  | .ok out => out

/-- An edit rejected by `Editor.Save`: its 1-based line number is out of
range of the file's physical lines, or the addressed line has no colon. -/
def badUpdate (lines : List String) (u : Nat × String) : Prop :=
  u.1 < 1 ∨ u.1 > lines.length ∨ stringIndexChar ':' ((lines.getD (u.1 - 1) "").toList) = none

instance (lines : List String) (u : Nat × String) : Decidable (badUpdate lines u) := by
  unfold badUpdate
  infer_instance

/-! ### Lemmas about the editor -/

theorem applyOne_ok {lines lines2 : List String} {n : Nat} {v : String}
    (h : applyOne lines n v = .ok lines2) :
    1 ≤ n ∧ n ≤ lines.length ∧
      ∃ patched, patchLine (lines.getD (n - 1) "") v = some patched ∧
        lines2 = lines.set (n - 1) patched := by
  unfold applyOne at h
  split at h
  · exact absurd h (by simp)
  · rename_i hrange
    push_neg at hrange
    rcases hmatch : patchLine (lines.getD (n - 1) "") v with _ | patched
    · rw [hmatch] at h
      exact absurd h (by simp)
    · rw [hmatch] at h
      simp only [Except.ok.injEq] at h
      exact ⟨by omega, by omega, patched, rfl, h.symm⟩

theorem applyOne_frame {lines lines2 : List String} {n : Nat} {v : String}
    (h : applyOne lines n v = .ok lines2) :
    lines2.length = lines.length ∧
      ∀ i : Nat, i + 1 ≠ n → lines2.get? i = lines.get? i := by
  obtain ⟨h1, _, patched, _, hset⟩ := applyOne_ok h
  subst hset
  refine ⟨List.length_set .., fun i hi => List.get?_set_ne _ _ (by omega)⟩

theorem applyUpdates_frame :
    ∀ (updates : List (Nat × String)) (lines lines2 : List String),
      applyUpdates updates lines = .ok lines2 →
      lines2.length = lines.length ∧
        ∀ i : Nat, (i + 1) ∉ updates.map Prod.fst → lines2.get? i = lines.get? i
  | [], lines, lines2, h => by
    simp only [applyUpdates, Except.ok.injEq] at h
    subst h
    exact ⟨rfl, fun _ _ => rfl⟩
  | (n, v) :: rest, lines, lines2, h => by
    simp only [applyUpdates] at h
    rcases hone : applyOne lines n v with e | mid
    · rw [hone] at h
      exact absurd h (by simp)
    · rw [hone] at h
      obtain ⟨hlen, hframe⟩ := applyUpdates_frame rest mid lines2 h
      obtain ⟨hlen1, hframe1⟩ := applyOne_frame hone
      refine ⟨hlen.trans hlen1, fun i hi => ?_⟩
      simp only [List.map_cons, List.mem_cons, not_or] at hi
      exact (hframe i (by simpa using hi.2)).trans (hframe1 i hi.1)

/-- C4: applying a batch of pending edits through `Editor.Save` leaves
every physical line whose 1-based number is not a key of the batch
byte-for-byte identical to the original file's line. -/
theorem save_frame (updates : List (Nat × String)) (content out : String)
    (h : Save updates content = .ok out) :
    ∃ lines2, applyUpdates updates (splitLines content) = .ok lines2 ∧
      out = joinLines lines2 ∧
      lines2.length = (splitLines content).length ∧
      ∀ i : Nat, (i + 1) ∉ updates.map Prod.fst →
        lines2.get? i = (splitLines content).get? i := by
  unfold Save at h
  rcases happ : applyUpdates updates (splitLines content) with e | lines2
  · rw [happ] at h
    exact absurd h (by simp)
  · rw [happ] at h
    simp only [Except.ok.injEq] at h
    obtain ⟨hlen, hframe⟩ := applyUpdates_frame updates _ _ happ
    exact ⟨lines2, rfl, h.symm, hlen, hframe⟩

/-- Concrete content with a Go-template placeholder on the line after the
patched key (braces written with escapes). -/
def tmplContent : String :=
  "image:\n  digest: sha256:old\n  # \x7b\x7b .Values.tmpl \x7d\x7d"

/-- Patched counterpart of `tmplContent`. -/
def tmplPatched : String :=
  "image:\n  digest: sha256:new\n  # \x7b\x7b .Values.tmpl \x7d\x7d"

theorem save_frame_witness :
    Save [(2, "sha256:new")] tmplContent = .ok tmplPatched ∧
    (∃ lines2, applyUpdates [(2, "sha256:new")] (splitLines tmplContent) = .ok lines2 ∧
      tmplPatched = joinLines lines2 ∧
      lines2.length = (splitLines tmplContent).length ∧
      ∀ i : Nat, (i + 1) ∉ ([(2, "sha256:new")].map Prod.fst : List Nat) →
        lines2.get? i = (splitLines tmplContent).get? i) :=
  ⟨rfl, save_frame [(2, "sha256:new")] tmplContent tmplPatched rfl⟩

theorem stringIndexChar_split (sep : Char) :
    ∀ l : List Char, sep ∈ l →
      ∃ i l1 l2, stringIndexChar sep l = some i ∧ l = l1 ++ sep :: l2 ∧
        sep ∉ l1 ∧ l1.length = i
  | c :: cs, h => by
    by_cases hc : c = sep
    · subst hc
      exact ⟨0, [], cs, by simp [stringIndexChar], rfl, by simp, rfl⟩
    · have hmem : sep ∈ cs := by
        rcases List.mem_cons.mp h with h' | h'
        · exact absurd h'.symm hc
        · exact h'
      obtain ⟨i, l1, l2, hidx, hsplit, hnot, hlen⟩ := stringIndexChar_split sep cs hmem
      refine ⟨i + 1, c :: l1, l2, ?_, by simp [hsplit], ?_, by simp [hlen]⟩
      · simp [stringIndexChar, hc, hidx]
      · simp only [List.mem_cons, not_or]
        exact ⟨fun hcc => hc hcc.symm, hnot⟩

/-- C5: on a line containing a colon, the patched line is exactly the
original text up to and including the first colon, then one space, then
the replacement value; nothing after the first colon survives. -/
theorem patchLine_spec (line newValue : String) (h : ':' ∈ line.toList) :
    ∃ l1 l2, line.toList = l1 ++ ':' :: l2 ∧ ':' ∉ l1 ∧
      patchLine line newValue = some (String.mk (l1 ++ ':' :: ' ' :: newValue.toList)) := by
  obtain ⟨i, l1, l2, hidx, hsplit, hnot, hlen⟩ := stringIndexChar_split ':' line.toList h
  refine ⟨l1, l2, hsplit, hnot, ?_⟩
  unfold patchLine
  rw [hidx, hsplit]
  have htake : (l1 ++ ':' :: l2).take (i + 1) = l1 ++ [':'] := by
    rw [← hlen]
    rw [List.take_append]
    simp
  simp [htake]

theorem patchLine_spec_witness :
    ':' ∈ ("  digest: sha256:old".toList) ∧
    (∃ l1 l2, ("  digest: sha256:old").toList = l1 ++ ':' :: l2 ∧ ':' ∉ l1 ∧
      patchLine "  digest: sha256:old" "sha256:new" =
        some (String.mk (l1 ++ ':' :: ' ' :: ("sha256:new" : String).toList))) :=
  ⟨by decide, patchLine_spec "  digest: sha256:old" "sha256:new" (by decide)⟩

theorem badUpdate_preserved {lines lines2 : List String} {m : Nat} {w : String}
    (hok : applyOne lines m w = .ok lines2) {u : Nat × String}
    (hbad : badUpdate lines u) : badUpdate lines2 u := by
  obtain ⟨hm1, hm2, patched, hpatch, hset⟩ := applyOne_ok hok
  subst hset
  rcases hbad with hlt | hgt | hcolon
  · exact Or.inl hlt
  · exact Or.inr (Or.inl (by simpa using hgt))
  · by_cases heq : u.1 - 1 = m - 1
    · exfalso
      unfold patchLine at hpatch
      rcases hidx : stringIndexChar ':' ((lines.getD (m - 1) "").toList) with _ | j
      · rw [hidx] at hpatch
        exact absurd hpatch (by simp)
      · rw [← heq] at hidx
        rw [hidx] at hcolon
        exact absurd hcolon (by simp)
    · refine Or.inr (Or.inr ?_)
      have : (lines.set (m - 1) patched).getD (u.1 - 1) "" = lines.getD (u.1 - 1) "" := by
        unfold List.getD
        rw [List.get?_set_ne _ _ (fun hc => heq hc.symm)]
      rw [this]
      exact hcolon

theorem applyOne_error_of_bad {lines : List String} {n : Nat} {v : String}
    (hbad : badUpdate lines (n, v)) : ∃ e, applyOne lines n v = .error e := by
  unfold applyOne
  by_cases hrange : n < 1 ∨ n > lines.length
  · rw [if_pos hrange]
    exact ⟨_, rfl⟩
  · rw [if_neg hrange]
    rcases hbad with h | h | h
    · exact absurd (Or.inl h) hrange
    · exact absurd (Or.inr h) hrange
    · have hnone : patchLine (lines.getD (n - 1) "") v = none := by
        unfold patchLine
        rw [h]
      rw [hnone]
      exact ⟨_, rfl⟩

theorem applyUpdates_error_of_bad :
    ∀ (updates : List (Nat × String)) (lines : List String),
      (∃ u ∈ updates, badUpdate lines u) →
      ∃ e, applyUpdates updates lines = .error e
  | [], _, ⟨u, hmem, _⟩ => absurd hmem (List.not_mem_nil u)
  | (n, v) :: rest, lines, ⟨u, hmem, hbad⟩ => by
    rcases List.mem_cons.mp hmem with hhead | htail
    · subst hhead
      obtain ⟨e, he⟩ := applyOne_error_of_bad hbad
      exact ⟨e, by simp [applyUpdates, he]⟩
    · rcases hone : applyOne lines n v with e | mid
      · exact ⟨e, by simp [applyUpdates, hone]⟩
      · obtain ⟨e, herr⟩ :=
          applyUpdates_error_of_bad rest mid ⟨u, htail, badUpdate_preserved hone hbad⟩
        exact ⟨e, by simp [applyUpdates, hone, herr]⟩

/-- C6: if any pending edit addresses a line number outside the file's
physical lines or a line with no colon, `Editor.Save` returns an error,
and — because the single write happens only after every edit succeeded in
memory — the file content is unchanged. -/
theorem save_error_unmodified (updates : List (Nat × String)) (content : String)
    (h : ∃ u ∈ updates, badUpdate (splitLines content) u) :
    (∃ e, Save updates content = .error e) ∧
      savedContent updates content = content := by
  obtain ⟨e, herr⟩ := applyUpdates_error_of_bad updates (splitLines content) h
  have hsave : Save updates content = .error e := by
    unfold Save
    rw [herr]
  exact ⟨⟨e, hsave⟩, by unfold savedContent; rw [hsave]⟩

theorem save_error_unmodified_witness :
    badUpdate (splitLines "image:\n  digest: sha256:old") (5, "x") ∧
    ((∃ e, Save [(5, "x")] "image:\n  digest: sha256:old" = .error e) ∧
      savedContent [(5, "x")] "image:\n  digest: sha256:old" = "image:\n  digest: sha256:old") :=
  ⟨by decide,
    save_error_unmodified [(5, "x")] "image:\n  digest: sha256:old"
      ⟨(5, "x"), by decide, by decide⟩⟩

/-! ### Lemmas about `GetValue` (claim C10) -/

theorem resolveLoop_append (root : YamlNode) (l1 l2 : List String) :
    resolveLoop root (l1 ++ l2) = (resolveLoop root l1).bind (fun n => resolveLoop n l2) := by
  induction l1 generalizing root with
  | nil => simp [resolveLoop]
  | cons seg rest ih =>
    simp only [List.cons_append, resolveLoop]
    rcases findChild root seg with _ | n
    · simp
    · exact ih n

/-- C10: `Editor.GetValue` returns the not-found error as soon as some
path segment fails to resolve, the not-scalar error when the path
resolves to a non-scalar node, and the scalar's value otherwise.  The
well-formedness hypothesis pins the domain on which the embedding of
`findChild` is exact (`yaml.v3` mapping nodes always hold key/value node
pairs). -/
theorem getValue_spec (root : YamlNode) (path : String) (_hwf : root.wf = true) :
    (∀ l1 seg l2 n, splitPath path = l1 ++ seg :: l2 → resolveLoop root l1 = some n →
        findChild n seg = none →
        GetValue root path = .error s!"path {path} not found") ∧
    (∀ n, resolveLoop root (splitPath path) = some n → n.kind ≠ .scalar →
        GetValue root path = .error s!"path {path} does not point to a scalar value") ∧
    (∀ n, resolveLoop root (splitPath path) = some n → n.kind = .scalar →
        GetValue root path = .ok n.value) := by
  refine ⟨fun l1 seg l2 n hsplit hres hnone => ?_, fun n hres hkind => ?_, fun n hres hkind => ?_⟩
  · unfold GetValue
    rw [hsplit, resolveLoop_append, hres]
    simp [resolveLoop, hnone]
  · unfold GetValue
    rw [hres]
    simp [hkind]
  · unfold GetValue
    rw [hres]
    simp [hkind]

/-- Concrete parsed tree used by the `GetValue` witness. -/
def sampleTree : YamlNode :=
  .mk .document "" 0
    [.mk .mapping "" 1
      [.mk .scalar "clustersService" 1 [],
       .mk .mapping "" 2
         [.mk .scalar "digest" 2 [],
          .mk .scalar "sha256:abc" 2 []]]]

theorem getValue_spec_witness :
    sampleTree.wf = true ∧
    GetValue sampleTree "clustersService.digest" = .ok "sha256:abc" :=
  ⟨by decide,
    (getValue_spec sampleTree "clustersService.digest" (by decide)).2.2
      (.mk .scalar "sha256:abc" 2 []) rfl rfl⟩

/-! ### Quay registry client data model (`pkg/clients/quay.go`)

Transport and JSON decoding are external: a registry is modelled as a
total function from page numbers to already-decoded `QuayTagsResponse`
values (the successful-HTTP case the claims are about), and a compiled
`regexp` is modelled as a `String → Bool` matcher. -/

/-- Tag record of the Quay tags API (`QuayTag`). -/
structure QuayTag where
  name : String
  manifestDigest : String
  lastModified : String
  deriving DecidableEq

/-- One page of the Quay tags API (`QuayTagsResponse`). -/
structure QuayTagsResponse where
  tags : List QuayTag
  page : Nat
  hasAdditional : Bool
  deriving DecidableEq

/-- Embedding of `isMetadataTag`: signature, attestation and SBOM
companion tags, identified by fixed name suffixes. -/
def isMetadataTag (name : String) : Bool :=
  hasSuffix name ".sig" || hasSuffix name ".att" || hasSuffix name ".sbom"

namespace Quay

/-- Loop of `tryGetLatestTag` over the first page's tags: the first tag
literally named `latest` wins; an empty digest on it is an error; absence
is `.ok none`. -/
def latestLoop (repository : String) : List QuayTag → Except String (Option String)
  | [] => .ok none
  | t :: ts =>
    if t.name = "latest" then
      if t.manifestDigest = "" then
        .error s!"latest tag found but no manifest digest available for repository {repository}"
      else .ok (some t.manifestDigest)
    else latestLoop repository ts

/-- Embedding of `QuayClient.tryGetLatestTag`: probe only page 1. -/
def tryGetLatestTag (repository : String) (pages : Nat → QuayTagsResponse) :
    Except String (Option String) :=
  latestLoop repository (pages 1).tags

/-- Loop of `QuayClient.getAllTags` in `quay.go`.  The Go loop
(`for { ...; if !tagsResp.HasAdditional { break }; page++ }`) has no page
bound, so the embedding observes it through a fuel parameter: `none`
means the loop has not stopped within `fuel` pages. -/
def getAllTagsAux (pages : Nat → QuayTagsResponse) :
    Nat → Nat → List QuayTag → Option (List QuayTag)
  | 0, _, _ => none
  | fuel + 1, page, acc =>
    if (pages page).hasAdditional then
      getAllTagsAux pages fuel (page + 1) (acc ++ (pages page).tags)
    else some (acc ++ (pages page).tags)

/-- Embedding of `QuayClient.getAllTags`: crawl starting at page 1. -/
def getAllTags (fuel : Nat) (pages : Nat → QuayTagsResponse) : Option (List QuayTag) :=
  getAllTagsAux pages fuel 1 []

/-- Filter phase of `getDigestByTagPattern` in `quay.go`: keep tags that
match the pattern, are not metadata tags and carry a digest. -/
def eligibleTag (rx : String → Bool) (t : QuayTag) : Bool :=
  rx t.name && !isMetadataTag t.name && !(t.manifestDigest == "")

/-- Embedding of `QuayClient.getDigestByTagPattern` in `quay.go`: filter,
sort descending by last-modified (`sort.Slice` with `compareTimestamps`,
passed in as the `sortDesc` parameter — the library guarantees only that
it permutes the slice) and take the first element.  The inner `[]` branch
is unreachable whenever `sortDesc` permutes its input, since it follows
the non-emptiness check. -/
def getDigestByTagPattern (sortDesc : List QuayTag → List QuayTag)
    (rx : String → Bool) (tagPattern repository : String)
    (tags : List QuayTag) : Except String String :=
  match sortDesc (tags.filter (eligibleTag rx)) with
  | mostRecent :: _ => .ok mostRecent.manifestDigest
  | [] => .error s!"no tags matching pattern {tagPattern} found for repository {repository}"

/-- Embedding of `QuayClient.GetLatestDigest` in `quay.go`: always try
the `latest` fast path first; fall back to the pattern path only when
page 1 holds no tag named `latest`.  The `Option` is `none` when the
unbounded tag crawl has not stopped within `fuel` pages. -/
def GetLatestDigest (sortDesc : List QuayTag → List QuayTag) (rx : String → Bool)
    (tagPattern repository : String) (fuel : Nat) (pages : Nat → QuayTagsResponse) :
    Option (Except String String) :=
  match tryGetLatestTag repository pages with
  | .error e => some (.error e)
  | .ok (some digest) => some (.ok digest)
  | .ok none =>
    match getAllTags fuel pages with
    | none => none
    | some tags => some (getDigestByTagPattern sortDesc rx tagPattern repository tags)

end Quay

namespace QuayB

/-- Loop of `QuayClient.getTags` in the repository's second copy of the
client: `for page := range maxPages` visits pages `0` to `4`, breaking as
soon as a page reports no further pages.  The first argument counts the
remaining loop iterations. -/
def getTagsAux (pages : Nat → QuayTagsResponse) :
    Nat → Nat → List QuayTag → List QuayTag
  | 0, _, acc => acc
  | remaining + 1, page, acc =>
    if (pages page).hasAdditional then
      getTagsAux pages remaining (page + 1) (acc ++ (pages page).tags)
    else acc ++ (pages page).tags

/-- The `maxPages = 5` bound of the second client's crawl. -/
def maxPages : Nat := 5

/-- Embedding of `QuayClient.getTags` (second copy): at most `maxPages`
pages, starting at page 0. -/
def getTags (pages : Nat → QuayTagsResponse) : List QuayTag :=
  getTagsAux pages maxPages 0 []

/-- Selection loop of `getDigestByTagPattern` in the second copy: a
linear scan keeping the tag with the strictly greatest `LastModified`
string (Go string comparison `>`); on ties the earlier tag is kept. -/
def selectLoop (rx : String → Bool) : List QuayTag → Option QuayTag → Option QuayTag
  | [], best => best
  | t :: ts, best =>
    if !rx t.name then selectLoop rx ts best
    else if isMetadataTag t.name then selectLoop rx ts best
    else if t.manifestDigest = "" then selectLoop rx ts best
    else
      match best with
      | none => selectLoop rx ts (some t)
      | some b =>
        if goStringLess b.lastModified.toList t.lastModified.toList then
          selectLoop rx ts (some t)
        else selectLoop rx ts best

/-- Embedding of `QuayClient.getDigestByTagPattern` (second copy): scan
the tags and return the digest of the selected tag, or the
no-matching-tags error. -/
def getDigestByTagPattern (rx : String → Bool) (tagPattern repository : String)
    (tags : List QuayTag) : Except String String :=
  match selectLoop rx tags none with
  | none => .error s!"no tags matching pattern {tagPattern} found for repository {repository}"
  | some mostRecent => .ok mostRecent.manifestDigest

/-- Embedding of `QuayClient.GetLatestDigest` (second copy): always the
pattern path; the `latest` fast path is never consulted. -/
def GetLatestDigest (rx : String → Bool) (tagPattern repository : String)
    (pages : Nat → QuayTagsResponse) : Except String String :=
  getDigestByTagPattern rx tagPattern repository (getTags pages)

end QuayB

/-! ### Claim C1: the `latest` fast path versus the tag pattern -/

/-- Concrete matcher standing for the compiled pattern `^v`. -/
def matchesV (s : String) : Bool :=
  List.isPrefixOf ['v'] s.toList

/-- Registry whose single page holds a `latest` tag and a `v`-tag. -/
def c1Pages : Nat → QuayTagsResponse := fun _ =>
  ⟨[⟨"latest", "sha256:abc", "t0"⟩, ⟨"v1.0.0", "d1", "t1"⟩], 1, false⟩

/-- C1 counterexample: with the non-empty tag pattern `^v` supplied,
`GetLatestDigest` of `quay.go` still answers from the `latest`-tag fast
path (`sha256:abc`), not from the pattern path, whose result on the same
tags is `d1`. -/
theorem getLatestDigest_pattern_ignored :
    ("^v" : String) ≠ "" ∧
    Quay.GetLatestDigest id matchesV "^v" "repo" 10 c1Pages = some (.ok "sha256:abc") ∧
    Quay.getDigestByTagPattern id matchesV "^v" "repo" (c1Pages 1).tags = .ok "d1" ∧
    ("sha256:abc" : String) ≠ "d1" :=
  ⟨by decide, rfl, rfl, by decide⟩

theorem latestLoop_found (repository : String) :
    ∀ (l1 : List QuayTag) (t : QuayTag) (l2 : List QuayTag),
      (∀ u ∈ l1, u.name ≠ "latest") → t.name = "latest" → t.manifestDigest ≠ "" →
      Quay.latestLoop repository (l1 ++ t :: l2) = .ok (some t.manifestDigest)
  | [], t, l2, _, hname, hdig => by
    simp [Quay.latestLoop, hname, hdig]
  | u :: l1, t, l2, hu, hname, hdig => by
    have hne : ¬ u.name = "latest" := hu u (List.mem_cons_self u l1)
    simp only [List.cons_append, Quay.latestLoop, if_neg hne]
    exact latestLoop_found repository l1 t l2
      (fun w hw => hu w (List.mem_cons_of_mem u hw)) hname hdig

theorem latestLoop_none (repository : String) :
    ∀ l : List QuayTag, (∀ u ∈ l, u.name ≠ "latest") →
      Quay.latestLoop repository l = .ok none
  | [], _ => rfl
  | u :: l, h => by
    simp only [Quay.latestLoop, if_neg (h u (List.mem_cons_self u l))]
    exact latestLoop_none repository l fun w hw => h w (List.mem_cons_of_mem u hw)

/-- C1 amended: `GetLatestDigest` of `quay.go` always attempts the
`latest`-tag fast path first, whether or not a tag pattern is supplied;
the pattern path runs only when page 1 holds no tag named `latest`.
(The second client's `GetLatestDigest` conversely always takes the
pattern path, by definition.) -/
theorem getLatestDigest_fast_path_first (sortDesc : List QuayTag → List QuayTag)
    (rx : String → Bool) (tagPattern repository : String) (fuel : Nat)
    (pages : Nat → QuayTagsResponse) :
    (∀ l1 t l2, (pages 1).tags = l1 ++ t :: l2 → (∀ u ∈ l1, u.name ≠ "latest") →
        t.name = "latest" → t.manifestDigest ≠ "" →
        Quay.GetLatestDigest sortDesc rx tagPattern repository fuel pages =
          some (.ok t.manifestDigest)) ∧
    ((∀ t ∈ (pages 1).tags, t.name ≠ "latest") →
        Quay.GetLatestDigest sortDesc rx tagPattern repository fuel pages =
          (Quay.getAllTags fuel pages).map
            (Quay.getDigestByTagPattern sortDesc rx tagPattern repository)) := by
  constructor
  · intro l1 t l2 hsplit hl1 hname hdig
    unfold Quay.GetLatestDigest Quay.tryGetLatestTag
    rw [hsplit, latestLoop_found repository l1 t l2 hl1 hname hdig]
  · intro hnone
    unfold Quay.GetLatestDigest Quay.tryGetLatestTag
    rw [latestLoop_none repository _ hnone]
    rcases h : Quay.getAllTags fuel pages with _ | tags <;> simp [h]

theorem getLatestDigest_fast_path_first_witness :
    (c1Pages 1).tags =
        [] ++ (⟨"latest", "sha256:abc", "t0"⟩ : QuayTag) :: [⟨"v1.0.0", "d1", "t1"⟩] ∧
    Quay.GetLatestDigest id matchesV "" "repo" 3 c1Pages = some (.ok "sha256:abc") :=
  ⟨rfl, (getLatestDigest_fast_path_first id matchesV "" "repo" 3 c1Pages).1
      [] ⟨"latest", "sha256:abc", "t0"⟩ [⟨"v1.0.0", "d1", "t1"⟩] rfl
      (by simp) rfl (by decide)⟩

/-! ### Claim C2: termination of the tag crawls -/

/-- Registry whose every page claims further pages exist. -/
def pagesAllTrue : Nat → QuayTagsResponse := fun n => ⟨[], n, true⟩

theorem getAllTagsAux_allTrue :
    ∀ (fuel page : Nat) (acc : List QuayTag),
      Quay.getAllTagsAux pagesAllTrue fuel page acc = none
  | 0, _, _ => rfl
  | fuel + 1, page, acc => by
    simp only [Quay.getAllTagsAux, pagesAllTrue, if_true]
    exact getAllTagsAux_allTrue fuel (page + 1) (acc ++ [])

/-- C2 counterexample: on a registry whose every page reports
`has_additional = true`, the `quay.go` crawl `getAllTags` has still not
stopped after 10001 pages — beyond every constant in the code — because
the loop carries no maximum page count. -/
theorem getAllTags_no_page_cap : Quay.getAllTags 10001 pagesAllTrue = none :=
  getAllTagsAux_allTrue 10001 1 []

/-- Concatenated tags of `count` consecutive pages starting at `start`. -/
def pagesConcat (pages : Nat → QuayTagsResponse) : Nat → Nat → List QuayTag
  | _, 0 => []
  | start, count + 1 => (pages start).tags ++ pagesConcat pages (start + 1) count

theorem getTagsAux_allTrue (pages : Nat → QuayTagsResponse)
    (h : ∀ p, (pages p).hasAdditional = true) (remaining : Nat) :
    ∀ (page : Nat) (acc : List QuayTag),
      QuayB.getTagsAux pages remaining page acc = acc ++ pagesConcat pages page remaining := by
  induction remaining with
  | zero => intro page acc; simp [QuayB.getTagsAux, pagesConcat]
  | succ m ih =>
    intro page acc
    simp only [QuayB.getTagsAux, h page, if_true]
    rw [ih (page + 1) (acc ++ (pages page).tags)]
    simp [pagesConcat]

theorem getTagsAux_stops (pages : Nat → QuayTagsResponse) (remaining : Nat) :
    ∀ (page k : Nat) (acc : List QuayTag),
      page ≤ k → k < page + remaining →
      (∀ p, page ≤ p → p < k → (pages p).hasAdditional = true) →
      (pages k).hasAdditional = false →
      QuayB.getTagsAux pages remaining page acc =
        acc ++ pagesConcat pages page (k + 1 - page) := by
  induction remaining with
  | zero =>
    intro page k acc h1 h2 _ _
    exact absurd h2 (by omega)
  | succ m ih =>
    intro page k acc h1 h2 htrue hfalse
    by_cases hpk : page = k
    · subst hpk
      simp only [QuayB.getTagsAux, hfalse, Bool.false_eq_true, if_false]
      have harith : page + 1 - page = 1 := by omega
      rw [harith]
      simp [pagesConcat]
    · have hstep : (pages page).hasAdditional = true := htrue page le_rfl (by omega)
      simp only [QuayB.getTagsAux, hstep, if_true]
      rw [ih (page + 1) k (acc ++ (pages page).tags) (by omega) (by omega)
        (fun p hp1 hp2 => htrue p (by omega) hp2) hfalse]
      have harith : k + 1 - page = (k + 1 - (page + 1)) + 1 := by omega
      rw [harith]
      simp [pagesConcat]

theorem getAllTagsAux_stops (pages : Nat → QuayTagsResponse) (fuel : Nat) :
    ∀ (page k : Nat) (acc : List QuayTag),
      page ≤ k → k < page + fuel →
      (∀ p, page ≤ p → p < k → (pages p).hasAdditional = true) →
      (pages k).hasAdditional = false →
      Quay.getAllTagsAux pages fuel page acc =
        some (acc ++ pagesConcat pages page (k + 1 - page)) := by
  induction fuel with
  | zero =>
    intro page k acc h1 h2 _ _
    exact absurd h2 (by omega)
  | succ m ih =>
    intro page k acc h1 h2 htrue hfalse
    by_cases hpk : page = k
    · subst hpk
      simp only [Quay.getAllTagsAux, hfalse, Bool.false_eq_true, if_false]
      have harith : page + 1 - page = 1 := by omega
      rw [harith]
      simp [pagesConcat]
    · have hstep : (pages page).hasAdditional = true := htrue page le_rfl (by omega)
      simp only [Quay.getAllTagsAux, hstep, if_true]
      rw [ih (page + 1) k (acc ++ (pages page).tags) (by omega) (by omega)
        (fun p hp1 hp2 => htrue p (by omega) hp2) hfalse]
      have harith : k + 1 - page = (k + 1 - (page + 1)) + 1 := by omega
      rw [harith]
      simp [pagesConcat]

/-- C2 amended: every crawl stops at the first page reporting
`has_additional = false`.  The second client's `getTags` additionally
stops after `maxPages = 5` pages even when every page reports more,
whereas the `quay.go` `getAllTags` carries no maximum page count and, on
a registry that always reports more pages, never stops (see the
counterexample `getAllTags_no_page_cap`). -/
theorem tagCrawl_stops (pages : Nat → QuayTagsResponse) :
    ((∀ p, (pages p).hasAdditional = true) →
        QuayB.getTags pages = pagesConcat pages 0 5) ∧
    (∀ k, k < 5 → (∀ p, p < k → (pages p).hasAdditional = true) →
        (pages k).hasAdditional = false →
        QuayB.getTags pages = pagesConcat pages 0 (k + 1)) ∧
    (∀ fuel k, 1 ≤ k → k ≤ fuel →
        (∀ p, 1 ≤ p → p < k → (pages p).hasAdditional = true) →
        (pages k).hasAdditional = false →
        Quay.getAllTags fuel pages = some (pagesConcat pages 1 k)) := by
  refine ⟨fun h => ?_, fun k hk htrue hfalse => ?_, fun fuel k h1 h2 htrue hfalse => ?_⟩
  · unfold QuayB.getTags QuayB.maxPages
    rw [getTagsAux_allTrue pages h 5 0 []]
    simp
  · unfold QuayB.getTags QuayB.maxPages
    rw [getTagsAux_stops pages 5 0 k [] (by omega) (by omega)
      (fun p _ hp => htrue p hp) hfalse]
    simp
  · unfold Quay.getAllTags
    rw [getAllTagsAux_stops pages fuel 1 k [] h1 (by omega) htrue hfalse]
    have harith : k + 1 - 1 = k := by omega
    rw [harith]
    simp

/-- Registry whose first pages already report no further pages. -/
def c2Pages : Nat → QuayTagsResponse := fun n => ⟨[⟨"v1", "d", "t"⟩], n, false⟩

theorem tagCrawl_stops_witness :
    (c2Pages 0).hasAdditional = false ∧ (c2Pages 1).hasAdditional = false ∧
    QuayB.getTags c2Pages = pagesConcat c2Pages 0 1 ∧
    Quay.getAllTags 1 c2Pages = some (pagesConcat c2Pages 1 1) :=
  ⟨rfl, rfl,
    (tagCrawl_stops c2Pages).2.1 0 (by omega) (fun p hp => absurd hp (by omega)) rfl,
    (tagCrawl_stops c2Pages).2.2 1 1 le_rfl le_rfl
      (fun p hp1 hp2 => absurd hp2 (by omega)) rfl⟩

/-! ### Claims C8 and C9: pattern-path tag selection -/

/-- Eligibility in the pattern-path selection: the tag's name matches the
pattern, the tag is not a metadata tag, and it carries a digest. -/
def eligible (rx : String → Bool) (t : QuayTag) : Prop :=
  rx t.name = true ∧ isMetadataTag t.name = false ∧ t.manifestDigest ≠ ""

instance (rx : String → Bool) (t : QuayTag) : Decidable (eligible rx t) := by
  unfold eligible
  infer_instance

theorem goStringLess_nil : ∀ a : List Char, goStringLess a [] = false
  | [] => rfl
  | _ :: _ => rfl

theorem goStringLess_irrefl : ∀ a : List Char, goStringLess a a = false
  | [] => rfl
  | c :: cs => by
    simp only [goStringLess, lt_irrefl, if_false]
    exact goStringLess_irrefl cs

theorem goStringLess_cons (x y : Char) (xs ys : List Char) :
    goStringLess (x :: xs) (y :: ys) = true ↔
      x.toNat < y.toNat ∨ (x.toNat = y.toNat ∧ goStringLess xs ys = true) := by
  simp only [goStringLess]
  by_cases h1 : x.toNat < y.toNat <;> by_cases h2 : y.toNat < x.toNat <;>
    simp [h1, h2] <;> omega

theorem goStringLess_trans :
    ∀ a b c : List Char, goStringLess a b = true → goStringLess b c = true →
      goStringLess a c = true
  | [], [], _, hab, _ => by simp [goStringLess] at hab
  | [], _ :: _, [], _, hbc => by simp [goStringLess_nil] at hbc
  | [], _ :: _, _ :: _, _, _ => rfl
  | _ :: _, [], _, hab, _ => by simp [goStringLess] at hab
  | _ :: _, _ :: _, [], _, hbc => by simp [goStringLess_nil] at hbc
  | x :: xs, y :: ys, z :: zs, hab, hbc => by
    rw [goStringLess_cons] at hab hbc ⊢
    rcases hab with h1 | ⟨h1, hrec1⟩
    · rcases hbc with h2 | ⟨h2, _⟩
      · exact Or.inl (by omega)
      · exact Or.inl (by omega)
    · rcases hbc with h2 | ⟨h2, hrec2⟩
      · exact Or.inl (by omega)
      · exact Or.inr ⟨by omega, goStringLess_trans xs ys zs hrec1 hrec2⟩

theorem goStringLess_cons_false (x y : Char) (xs ys : List Char) :
    goStringLess (x :: xs) (y :: ys) = false ↔
      y.toNat < x.toNat ∨ (x.toNat = y.toNat ∧ goStringLess xs ys = false) := by
  simp only [goStringLess]
  by_cases h1 : x.toNat < y.toNat <;> by_cases h2 : y.toNat < x.toNat <;>
    simp [h1, h2] <;> omega

theorem goStringLess_notLess_trans :
    ∀ a b c : List Char, goStringLess a b = false → goStringLess b c = false →
      goStringLess a c = false
  | _, _, [], _, _ => goStringLess_nil _
  | _, [], _ :: _, _, hbc => by simp [goStringLess] at hbc
  | [], _ :: _, _ :: _, hab, _ => by simp [goStringLess] at hab
  | x :: xs, y :: ys, z :: zs, hab, hbc => by
    rw [goStringLess_cons_false] at hab hbc ⊢
    rcases hab with h1 | ⟨h1, hrec1⟩
    · rcases hbc with h2 | ⟨h2, _⟩
      · exact Or.inl (by omega)
      · exact Or.inl (by omega)
    · rcases hbc with h2 | ⟨h2, hrec2⟩
      · exact Or.inl (by omega)
      · exact Or.inr ⟨by omega, goStringLess_notLess_trans xs ys zs hrec1 hrec2⟩

theorem selectLoop_cons (rx : String → Bool) (u : QuayTag) (ts : List QuayTag)
    (best : Option QuayTag) :
    QuayB.selectLoop rx (u :: ts) best =
      if eligible rx u then
        match best with
        | none => QuayB.selectLoop rx ts (some u)
        | some b =>
          if goStringLess b.lastModified.toList u.lastModified.toList then
            QuayB.selectLoop rx ts (some u)
          else QuayB.selectLoop rx ts best
      else QuayB.selectLoop rx ts best := by
  simp only [QuayB.selectLoop, eligible]
  by_cases h1 : rx u.name <;> by_cases h2 : isMetadataTag u.name <;>
    by_cases h3 : u.manifestDigest = "" <;>
    simp [h1, h2, h3]

theorem selectLoop_max (rx : String → Bool) :
    ∀ (l : List QuayTag) (best : Option QuayTag) (t : QuayTag),
      QuayB.selectLoop rx l best = some t →
      (best = some t ∨ (t ∈ l ∧ eligible rx t)) ∧
      (∀ u ∈ l, eligible rx u →
        goStringLess t.lastModified.toList u.lastModified.toList = false) ∧
      (∀ b, best = some b →
        goStringLess t.lastModified.toList b.lastModified.toList = false)
  | [], best, t, h => by
    simp only [QuayB.selectLoop] at h
    subst h
    exact ⟨Or.inl rfl, fun u hu => absurd hu (List.not_mem_nil u),
      fun b hb => by injection hb with hb; subst hb; exact goStringLess_irrefl _⟩
  | u :: ts, best, t, h => by
    rw [selectLoop_cons] at h
    by_cases helig : eligible rx u
    · rw [if_pos helig] at h
      rcases best with _ | b
      · obtain ⟨hmem, hmax, hbest⟩ := selectLoop_max rx ts (some u) t h
        have htu : goStringLess t.lastModified.toList u.lastModified.toList = false :=
          hbest u rfl
        refine ⟨?_, ?_, ?_⟩
        · rcases hmem with heq | ⟨hin, he⟩
          · injection heq with heq
            subst heq
            exact Or.inr ⟨List.mem_cons_self u ts, helig⟩
          · exact Or.inr ⟨List.mem_cons_of_mem u hin, he⟩
        · intro w hw hew
          rcases List.mem_cons.mp hw with hwu | hwts
          · subst hwu; exact htu
          · exact hmax w hwts hew
        · intro b hb
          exact absurd hb (by simp)
      · replace h : (if goStringLess b.lastModified.toList u.lastModified.toList then
            QuayB.selectLoop rx ts (some u)
          else QuayB.selectLoop rx ts (some b)) = some t := h
        by_cases hlt : goStringLess b.lastModified.toList u.lastModified.toList = true
        · rw [if_pos hlt] at h
          obtain ⟨hmem, hmax, hbest⟩ := selectLoop_max rx ts (some u) t h
          have htu : goStringLess t.lastModified.toList u.lastModified.toList = false :=
            hbest u rfl
          refine ⟨?_, ?_, ?_⟩
          · rcases hmem with heq | ⟨hin, he⟩
            · injection heq with heq
              subst heq
              exact Or.inr ⟨List.mem_cons_self u ts, helig⟩
            · exact Or.inr ⟨List.mem_cons_of_mem u hin, he⟩
          · intro w hw hew
            rcases List.mem_cons.mp hw with hwu | hwts
            · subst hwu; exact htu
            · exact hmax w hwts hew
          · intro b2 hb2
            injection hb2 with hb2
            subst hb2
            rcases htb : goStringLess t.lastModified.toList b.lastModified.toList with _ | _
            · rfl
            · exfalso
              have := goStringLess_trans _ _ _ htb hlt
              rw [htu] at this
              cases this
        · replace hlt : goStringLess b.lastModified.toList u.lastModified.toList = false :=
            Bool.not_eq_true _ ▸ Bool.of_not_eq_true hlt
          rw [hlt] at h
          replace h : QuayB.selectLoop rx ts (some b) = some t := by
            simpa using h
          obtain ⟨hmem, hmax, hbest⟩ := selectLoop_max rx ts (some b) t h
          have htb : goStringLess t.lastModified.toList b.lastModified.toList = false :=
            hbest b rfl
          refine ⟨?_, ?_, ?_⟩
          · rcases hmem with heq | ⟨hin, he⟩
            · exact Or.inl heq
            · exact Or.inr ⟨List.mem_cons_of_mem u hin, he⟩
          · intro w hw hew
            rcases List.mem_cons.mp hw with hwu | hwts
            · subst hwu
              exact goStringLess_notLess_trans _ _ _ htb hlt
            · exact hmax w hwts hew
          · intro b2 hb2
            injection hb2 with hb2
            subst hb2
            exact htb
    · rw [if_neg helig] at h
      obtain ⟨hmem, hmax, hbest⟩ := selectLoop_max rx ts best t h
      refine ⟨?_, ?_, hbest⟩
      · rcases hmem with heq | ⟨hin, he⟩
        · exact Or.inl heq
        · exact Or.inr ⟨List.mem_cons_of_mem u hin, he⟩
      · intro w hw hew
        rcases List.mem_cons.mp hw with hwu | hwts
        · subst hwu; exact absurd hew helig
        · exact hmax w hwts hew

theorem selectLoop_eq_none (rx : String → Bool) :
    ∀ (l : List QuayTag) (best : Option QuayTag),
      QuayB.selectLoop rx l best = none →
      best = none ∧ ∀ t ∈ l, ¬ eligible rx t
  | [], best, h => ⟨h, fun t ht => absurd ht (List.not_mem_nil t)⟩
  | u :: ts, best, h => by
    rw [selectLoop_cons] at h
    by_cases helig : eligible rx u
    · rw [if_pos helig] at h
      rcases best with _ | b
      · obtain ⟨hnone, _⟩ := selectLoop_eq_none rx ts (some u) h
        exact absurd hnone (by simp)
      · replace h : (if goStringLess b.lastModified.toList u.lastModified.toList then
            QuayB.selectLoop rx ts (some u)
          else QuayB.selectLoop rx ts (some b)) = none := h
        by_cases hlt : goStringLess b.lastModified.toList u.lastModified.toList = true
        · rw [if_pos hlt] at h
          obtain ⟨hnone, _⟩ := selectLoop_eq_none rx ts (some u) h
          exact absurd hnone (by simp)
        · replace hlt : goStringLess b.lastModified.toList u.lastModified.toList = false :=
            Bool.not_eq_true _ ▸ Bool.of_not_eq_true hlt
          rw [hlt] at h
          replace h : QuayB.selectLoop rx ts (some b) = none := by
            simpa using h
          obtain ⟨hnone, _⟩ := selectLoop_eq_none rx ts (some b) h
          exact absurd hnone (by simp)
    · rw [if_neg helig] at h
      obtain ⟨hnone, hall⟩ := selectLoop_eq_none rx ts best h
      refine ⟨hnone, fun t ht => ?_⟩
      rcases List.mem_cons.mp ht with h1 | h1
      · subst h1; exact helig
      · exact hall t h1

/-- C8: whenever an eligible tag exists, the pattern-path selector of the
second client returns the digest of an eligible tag whose last-modified
string is maximal among all eligible tags (Go compares the raw
`LastModified` strings with `>`); the selector is a pure function of the
tag list, so its result is deterministic given an identical input order.
The spec's `v1.0.0`/`v1.1.0` example instantiates this as the witness. -/
theorem getDigestByTagPattern_max (rx : String → Bool) (tagPattern repository : String)
    (tags : List QuayTag) (t0 : QuayTag) (h0 : t0 ∈ tags) (helig0 : eligible rx t0) :
    ∃ t ∈ tags, eligible rx t ∧
      QuayB.getDigestByTagPattern rx tagPattern repository tags = .ok t.manifestDigest ∧
      ∀ u ∈ tags, eligible rx u →
        goStringLess t.lastModified.toList u.lastModified.toList = false := by
  unfold QuayB.getDigestByTagPattern
  rcases hsel : QuayB.selectLoop rx tags none with _ | t
  · obtain ⟨_, hall⟩ := selectLoop_eq_none rx tags none hsel
    exact absurd helig0 (hall t0 h0)
  · obtain ⟨hmem, hmax, _⟩ := selectLoop_max rx tags none t hsel
    rcases hmem with heq | ⟨hin, he⟩
    · exact absurd heq (by simp)
    · exact ⟨t, hin, he, rfl, hmax⟩

/-- Tags of the spec's pattern-path example. -/
def exTags : List QuayTag := [⟨"v1.0.0", "d1", "t1"⟩, ⟨"v1.1.0", "d2", "t2"⟩]

/-- Concrete matcher standing for the compiled pattern
`^v\d+\.\d+\.\d+$`: a `v` followed by three dot-separated digit runs. -/
def matchesSemverV (s : String) : Bool :=
  match splitOnChar '.' s.toList with
  | [a, b, c] =>
    match a with
    | 'v' :: a1 =>
      !a1.isEmpty && a1.all Char.isDigit && !b.isEmpty && b.all Char.isDigit
        && !c.isEmpty && c.all Char.isDigit
    | _ => false
  | _ => false

theorem getDigestByTagPattern_max_witness :
    (⟨"v1.0.0", "d1", "t1"⟩ : QuayTag) ∈ exTags ∧
    eligible matchesSemverV ⟨"v1.0.0", "d1", "t1"⟩ ∧
    goStringLess ("t1" : String).toList ("t2" : String).toList = true ∧
    QuayB.getDigestByTagPattern matchesSemverV "pat" "repo" exTags = .ok "d2" ∧
    (∃ t ∈ exTags, eligible matchesSemverV t ∧
      QuayB.getDigestByTagPattern matchesSemverV "pat" "repo" exTags = .ok t.manifestDigest ∧
      ∀ u ∈ exTags, eligible matchesSemverV u →
        goStringLess t.lastModified.toList u.lastModified.toList = false) :=
  ⟨by decide, by decide, by decide, rfl,
    getDigestByTagPattern_max matchesSemverV "pat" "repo" exTags
      ⟨"v1.0.0", "d1", "t1"⟩ (by decide) (by decide)⟩

/-- C9: whenever the `quay.go` pattern-path selector returns a digest,
that digest comes from a tag that is not a metadata tag (suffixes `.sig`,
`.att`, `.sbom`), matches the pattern, and carries a non-empty digest:
the metadata filter runs before the sort, and `sort.Slice` only permutes
the filtered slice, so the selected head is an output of the filter. -/
theorem metadata_never_selected (sortDesc : List QuayTag → List QuayTag)
    (hperm : ∀ l, (sortDesc l).Perm l)
    (rx : String → Bool) (tagPattern repository : String)
    (tags : List QuayTag) (d : String)
    (h : Quay.getDigestByTagPattern sortDesc rx tagPattern repository tags = .ok d) :
    ∃ t ∈ tags, isMetadataTag t.name = false ∧ rx t.name = true ∧
      t.manifestDigest = d ∧ t.manifestDigest ≠ "" := by
  unfold Quay.getDigestByTagPattern at h
  rcases hsort : sortDesc (tags.filter (Quay.eligibleTag rx)) with _ | ⟨t, rest⟩
  · rw [hsort] at h
    exact absurd h (by simp)
  · rw [hsort] at h
    simp only [Except.ok.injEq] at h
    have hmem : t ∈ tags.filter (Quay.eligibleTag rx) := by
      refine (hperm _).mem_iff.mp ?_
      rw [hsort]
      exact List.mem_cons_self t rest
    obtain ⟨htags, helig⟩ := List.mem_filter.mp hmem
    simp only [Quay.eligibleTag, Bool.and_eq_true, Bool.not_eq_true',
      beq_eq_false_iff_ne, ne_eq] at helig
    exact ⟨t, htags, helig.1.2, helig.1.1, h, helig.2⟩

/-- Tags where a metadata tag matching the pattern carries a digest. -/
def c9Tags : List QuayTag := [⟨"v1.2.3.sig", "dsig", "t9"⟩, ⟨"v1.2.3", "d", "t1"⟩]

theorem metadata_never_selected_witness :
    Quay.getDigestByTagPattern id matchesV "pat" "repo" c9Tags = .ok "d" ∧
    (∃ t ∈ c9Tags, isMetadataTag t.name = false ∧ matchesV t.name = true ∧
      t.manifestDigest = "d" ∧ t.manifestDigest ≠ "") :=
  ⟨rfl,
    metadata_never_selected id (fun l => List.Perm.refl l) matchesV "pat" "repo"
      c9Tags "d" rfl⟩

/-! ### Configuration data model (`pkg/config/config.go`) and the
orchestrator (`pkg/updater/updater.go`)

`Config.Images` is a Go `map[string]ImageConfig`.  The embedding keeps
the configuration document's declaration order as an association list;
Go's `for name, imageConfig := range cfg.Images` visits the entries in an
unspecified order, modelled by running the orchestrator on an arbitrary
permutation of that list.

The file system is a total map from file paths to physical lines, and
`yaml.Unmarshal` is an explicit `parse` parameter from raw lines to a
node tree (`NewEditor` re-reads and re-parses the file on every
`updateImage` call). -/

/-- Source registry coordinates (`config.Source`). -/
structure Source where
  registry : String
  repository : String
  tagPattern : String
  deriving DecidableEq

/-- Update target (`config.Target`): a logical path in a file. -/
structure Target where
  jsonPath : String
  filePath : String
  deriving DecidableEq

/-- Per-image configuration (`config.ImageConfig`). -/
structure ImageConfig where
  source : Source
  targets : List Target
  deriving DecidableEq

/-- Whole configuration (`config.Config`), in declaration order. -/
structure Config where
  images : List (String × ImageConfig)
  deriving DecidableEq

/-- Embedding of `Updater.updateImage`: load and parse the target file,
read the current digest at the logical path, and stop (no write, no
error) when it already equals the resolved digest; otherwise, in dry-run
mode report only, and in normal mode record the scalar's line
(`SetValue`) and rewrite exactly that line (`Save`).  Returns the new
file system and whether a write happened. -/
def updateImage (parse : List String → YamlNode) (dryRun : Bool)
    (latestDigest : String) (target : Target) (fs : String → List String) :
    Except String ((String → List String) × Bool) :=
  match GetValue (parse (fs target.filePath)) target.jsonPath with
  | .error e => .error s!"failed to get current digest: {e}"
  | .ok currentDigest =>
    if currentDigest = latestDigest then .ok (fs, false)
    else if dryRun then .ok (fs, false)
    else
      match SetValueLine (parse (fs target.filePath)) target.jsonPath with
      | .error e => .error s!"failed to set new digest: {e}"
      | .ok line =>
        match applyUpdates [(line, latestDigest)] (fs target.filePath) with
        | .error e => .error s!"failed to save file: {e}"
        | .ok lines2 => .ok (fun p => if p = target.filePath then lines2 else fs p, true)

/-- Loop of `UpdateImages` over one image's targets, threading the file
system and failing fast on the first error. -/
def updateTargets (parse : List String → YamlNode) (dryRun : Bool) (digest : String) :
    List Target → (String → List String) → Except String (String → List String)
  | [], fs => .ok fs
  | t :: ts, fs =>
    match updateImage parse dryRun digest t fs with
    | .error e => .error e
    | .ok (fs2, _) => updateTargets parse dryRun digest ts fs2

/-- Embedding of `Updater.UpdateImages`: process the images in the given
iteration order (`for name, imageConfig := range cfg.Images`), resolving
each image's digest (`fetchLatestDigest`, the `resolve` parameter) and
updating each of its targets; a failure aborts the whole run.  Returns
the final file system and the processed image names in processing
order. -/
def UpdateImages (resolve : Source → Except String String)
    (parse : List String → YamlNode) (dryRun : Bool) :
    List (String × ImageConfig) → (String → List String) →
    Except String ((String → List String) × List String)
  | [], fs => .ok (fs, [])
  | (name, imageConfig) :: rest, fs =>
    match resolve imageConfig.source with
    | .error e => .error s!"failed to fetch latest digest: {e}"
    | .ok digest =>
      match updateTargets parse dryRun digest imageConfig.targets fs with
      | .error e => .error s!"failed to update image {name}: {e}"
      | .ok fs2 =>
        match UpdateImages resolve parse dryRun rest fs2 with
        | .error e => .error e
        | .ok (fs3, names) => .ok (fs3, name :: names)

/-! ### Claim C3: processing order of the configured images -/

/-- Image configuration with no targets, used in concrete runs. -/
def icEmpty : ImageConfig := ⟨⟨"quay.io", "repo/a", ""⟩, []⟩

/-- Two-image configuration declared in the order `a`, `b`. -/
def cfgC3 : Config := ⟨[("a", icEmpty), ("b", icEmpty)]⟩

/-- Empty file system. -/
def fsEmpty : String → List String := fun _ => []

/-- Trivial parser used in concrete runs. -/
def parseTrivial : List String → YamlNode := fun _ => .mk .scalar "" 0 []

/-- C3 counterexample: the Go map iteration order `b`, `a` is a
permutation of the configuration declared as `a`, `b` — and a run in
that order emits its reports in the order `b`, `a`, not in declaration
order.  (Go map iteration order is unspecified and randomized, so this
order is a possible execution of `UpdateImages`.) -/
theorem updateImages_order_counterexample :
    ([("b", icEmpty), ("a", icEmpty)] : List (String × ImageConfig)).Perm cfgC3.images ∧
    UpdateImages (fun _ => .ok "d") parseTrivial false
        [("b", icEmpty), ("a", icEmpty)] fsEmpty = .ok (fsEmpty, ["b", "a"]) ∧
    cfgC3.images.map Prod.fst = ["a", "b"] ∧
    (["b", "a"] : List String) ≠ ["a", "b"] :=
  ⟨List.Perm.swap ("a", icEmpty) ("b", icEmpty) [], rfl, rfl, by decide⟩

theorem updateImages_trace :
    ∀ (resolve : Source → Except String String) (parse : List String → YamlNode)
      (dryRun : Bool) (entries : List (String × ImageConfig))
      (fs fs2 : String → List String) (names : List String),
      UpdateImages resolve parse dryRun entries fs = .ok (fs2, names) →
      names = entries.map Prod.fst
  | _, _, _, [], _, _, _, h => by
    simp only [UpdateImages, Except.ok.injEq, Prod.mk.injEq] at h
    simp [h.2.symm]
  | resolve, parse, dryRun, (name, imageConfig) :: rest, fs, fs2, names, h => by
    simp only [UpdateImages] at h
    rcases hres : resolve imageConfig.source with e | digest
    · rw [hres] at h
      exact absurd h (by simp)
    · rw [hres] at h
      dsimp only at h
      rcases htgt : updateTargets parse dryRun digest imageConfig.targets fs with e | fsMid
      · rw [htgt] at h
        exact absurd h (by simp)
      · rw [htgt] at h
        dsimp only at h
        rcases hrec : UpdateImages resolve parse dryRun rest fsMid with e | p
        · rw [hrec] at h
          exact absurd h (by simp)
        · rw [hrec] at h
          obtain ⟨fs3, names3⟩ := p
          simp only [Except.ok.injEq, Prod.mk.injEq] at h
          have := updateImages_trace resolve parse dryRun rest fsMid fs3 names3 hrec
          simp [← h.2, this]

/-- C3 amended: `UpdateImages` processes the configured images in the Go
map iteration order — an unspecified permutation of the declaration
order, so the emitted reports follow iteration order, and each declared
image is processed exactly once (the name trace is a permutation of the
declared names); declaration order itself is not preserved (see the
counterexample). -/
theorem updateImages_iteration_order (resolve : Source → Except String String)
    (parse : List String → YamlNode) (dryRun : Bool) (cfg : Config)
    (entries : List (String × ImageConfig)) (fs fs2 : String → List String)
    (names : List String) (hperm : entries.Perm cfg.images)
    (h : UpdateImages resolve parse dryRun entries fs = .ok (fs2, names)) :
    names = entries.map Prod.fst ∧ names.Perm (cfg.images.map Prod.fst) := by
  have htrace := updateImages_trace resolve parse dryRun entries fs fs2 names h
  exact ⟨htrace, htrace ▸ hperm.map Prod.fst⟩

theorem updateImages_iteration_order_witness :
    ([("b", icEmpty), ("a", icEmpty)] : List (String × ImageConfig)).Perm cfgC3.images ∧
    UpdateImages (fun _ => .ok "d") parseTrivial false
        [("b", icEmpty), ("a", icEmpty)] fsEmpty = .ok (fsEmpty, ["b", "a"]) ∧
    (["b", "a"] : List String) = [("b", icEmpty), ("a", icEmpty)].map Prod.fst ∧
    (["b", "a"] : List String).Perm (cfgC3.images.map Prod.fst) :=
  ⟨List.Perm.swap ("a", icEmpty) ("b", icEmpty) [], rfl,
    (updateImages_iteration_order (fun _ => .ok "d") parseTrivial false cfgC3
      [("b", icEmpty), ("a", icEmpty)] fsEmpty fsEmpty ["b", "a"]
      (List.Perm.swap ("a", icEmpty) ("b", icEmpty) []) rfl).1,
    (updateImages_iteration_order (fun _ => .ok "d") parseTrivial false cfgC3
      [("b", icEmpty), ("a", icEmpty)] fsEmpty fsEmpty ["b", "a"]
      (List.Perm.swap ("a", icEmpty) ("b", icEmpty) []) rfl).2⟩

/-! ### Claim C7: idempotence of `updateImage` -/

/-- C7: when the current value at the target's logical path already
equals the resolved digest, `updateImage` writes nothing and returns no
error; consequently a second run on the state left by a first run — whose
re-parse reads back the digest the first run wrote — performs zero
edits.  (The re-parse hypothesis in the second part is exactly what the
external `yaml.v3` round trip provides on the files this tool edits.) -/
theorem updateImage_idempotent (parse : List String → YamlNode) (dryRun : Bool)
    (latest : String) (target : Target) (fs : String → List String) :
    (GetValue (parse (fs target.filePath)) target.jsonPath = .ok latest →
      updateImage parse dryRun latest target fs = .ok (fs, false)) ∧
    (∀ fs2 wrote, updateImage parse false latest target fs = .ok (fs2, wrote) →
      GetValue (parse (fs2 target.filePath)) target.jsonPath = .ok latest →
      updateImage parse false latest target fs2 = .ok (fs2, false)) := by
  constructor
  · intro h
    unfold updateImage
    rw [h]
    simp
  · intro fs2 wrote _ h2
    unfold updateImage
    rw [h2]
    simp

/-- Target and file system used by the C7 witness. -/
def c7Target : Target := ⟨"clustersService.digest", "config.yaml"⟩

/-- One-file file system whose digest is already current. -/
def c7Fs : String → List String := fun _ => ["clustersService:", "  digest: sha256:abc"]

/-- Parser returning the tree of `c7Fs`'s single file. -/
def c7Parse : List String → YamlNode := fun _ => sampleTree

theorem updateImage_idempotent_witness :
    GetValue (c7Parse (c7Fs c7Target.filePath)) c7Target.jsonPath = .ok "sha256:abc" ∧
    updateImage c7Parse false "sha256:abc" c7Target c7Fs = .ok (c7Fs, false) :=
  ⟨rfl, (updateImage_idempotent c7Parse false "sha256:abc" c7Target c7Fs).1 rfl⟩

end ImageUpdater
